import Mathlib

/-!
# Verification of the dementia Brainfuck compiler

Shallow embedding of `src/dementia/__main__.py`: the run-length grouper
(`parse_basic_instructions` / `sum_repeatable_commands`), the peephole
optimizer (`optimize_patterns`), and the semantics of the Python code
emitted by `build_python_code`, together with theorems settling the
frozen claims about the program.
-/

/-- The instruction datatype, mirroring the frozen dataclasses
`IncCell`, `IncPtr`, `Transfer`, `StartLoop`, `EndLoop`, `Input`,
`Output`, `Clear` of `__main__.py`. -/
inductive Instruction : Type
  | IncCell (amount : Int)
  | IncPtr (amount : Int)
  | Transfer (distance : Int)
  | StartLoop
  | EndLoop
  | Input
  | Output
  | Clear
  deriving DecidableEq, Repr

abbrev Bytecode := List Instruction

set_option maxRecDepth 100000

open Instruction

/-- `optimize_patterns` of `__main__.py`.  The Python `match` on
`bytecode[i:]` tries, in order: the clear window
`[StartLoop(), IncCell(_), EndLoop(), *_]` (note: any amount),
then the transfer window
`[StartLoop(), IncCell(-1), IncPtr(left), IncCell(1), IncPtr(right), EndLoop(), *_]`
guarded by `left == -right`, else copies one instruction and advances. -/
def optimize_patterns : Bytecode → Bytecode
  | StartLoop :: IncCell _ :: EndLoop :: rest =>
      Clear :: optimize_patterns rest
  | StartLoop :: IncCell a :: IncPtr left :: IncCell b :: IncPtr right :: EndLoop :: rest =>
      if a = -1 ∧ b = 1 ∧ left = -right then
        Transfer left :: optimize_patterns rest
      else
        StartLoop :: optimize_patterns
          (IncCell a :: IncPtr left :: IncCell b :: IncPtr right :: EndLoop :: rest)
  | i :: rest => i :: optimize_patterns rest
  | [] => []

/-- The `while` loop of `sum_repeatable_commands` in `__main__.py`, with the
running `amount` made an explicit accumulator.  Each iteration first evaluates
`code[code_ptr]`; an out-of-range index raises `IndexError`, modelled as
`none`.  When the character at `code_ptr` is neither `positive` nor
`negative` the loop exits and the function returns `(code_ptr - 1, amount)`. -/
def sum_loop (code : List Char) (code_ptr : Nat) (positive negative : Char)
    (amount : Int) : Option (Nat × Int) :=
  match h : code.get? code_ptr with
  | none => none
  | some c =>
    if c = positive then sum_loop code (code_ptr + 1) positive negative (amount + 1)
    else if c = negative then sum_loop code (code_ptr + 1) positive negative (amount - 1)
    else some (code_ptr - 1, amount)
termination_by code.length - code_ptr
decreasing_by
  all_goals
    obtain ⟨hl, -⟩ := List.get?_eq_some.mp h
    omega

/-- `sum_repeatable_commands` of `__main__.py`: runs the scanning loop with
`amount` initialised to `0`. -/
def sum_repeatable_commands (code : List Char) (code_ptr : Nat)
    (positive negative : Char) : Option (Nat × Int) :=
  sum_loop code code_ptr positive negative 0

/-- The scan errors out (runs past the end of the source) exactly when every
character from `code_ptr` onward is one of the two scanned characters. -/
theorem sum_loop_none_iff (code : List Char) :
    ∀ (code_ptr : Nat) (positive negative : Char) (amount : Int),
      sum_loop code code_ptr positive negative amount = none ↔
        ∀ j c, code_ptr ≤ j → code.get? j = some c → c = positive ∨ c = negative := by
  intro code_ptr positive negative amount
  induction code_ptr, positive, negative, amount using sum_loop.induct code with
  | case1 code_ptr positive negative amount h =>
    rw [sum_loop.eq_def, h]
    simp only [true_iff]
    intro j c hj hg
    rw [List.get?_eq_none.mpr (le_trans (List.get?_eq_none.mp h) hj)] at hg
    exact absurd hg (by simp)
  | case2 code_ptr negative amount c h ih =>
    rw [sum_loop.eq_def, h]
    simp only [eq_self_iff_true, if_true]
    rw [ih]
    constructor
    · intro hall j c' hj hg
      rcases Nat.eq_or_lt_of_le hj with heq | hlt
      · rw [← heq] at hg; rw [h] at hg; exact Or.inl (Option.some.inj hg).symm
      · exact hall j c' hlt hg
    · intro hall j c' hj hg
      exact hall j c' (le_of_lt hj) hg
  | case3 code_ptr positive amount c h hnp ih =>
    rw [sum_loop.eq_def, h]
    simp only [hnp, if_false, eq_self_iff_true, if_true]
    rw [ih]
    constructor
    · intro hall j c' hj hg
      rcases Nat.eq_or_lt_of_le hj with heq | hlt
      · rw [← heq] at hg; rw [h] at hg; exact Or.inr (Option.some.inj hg).symm
      · exact hall j c' hlt hg
    · intro hall j c' hj hg
      exact hall j c' (le_of_lt hj) hg
  | case4 code_ptr positive negative amount c h hnp hnn =>
    rw [sum_loop.eq_def, h]
    simp only [hnp, hnn, if_false, reduceCtorEq, false_iff, not_forall]
    exact ⟨code_ptr, c, le_refl _, h, by tauto⟩

/-- When the scan started at a position `≥ 1` and returns normally, the
returned position `p` satisfies `p + 1 ≥` the start, and the character at
`p + 1` exists and is not one of the two scanned characters. -/
theorem sum_loop_some_stop (code : List Char) :
    ∀ (code_ptr : Nat) (positive negative : Char) (amount : Int) (p : Nat) (amt : Int),
      1 ≤ code_ptr →
      sum_loop code code_ptr positive negative amount = some (p, amt) →
      code_ptr ≤ p + 1 ∧ ∃ c, code.get? (p + 1) = some c ∧ c ≠ positive ∧ c ≠ negative := by
  intro code_ptr positive negative amount
  induction code_ptr, positive, negative, amount using sum_loop.induct code with
  | case1 code_ptr positive negative amount h =>
    intro p amt _ hs
    rw [sum_loop.eq_def, h] at hs
    exact absurd hs (by simp)
  | case2 code_ptr negative amount c h ih =>
    intro p amt h1 hs
    rw [sum_loop.eq_def, h] at hs
    simp only [eq_self_iff_true, if_true] at hs
    obtain ⟨hle, hc⟩ := ih p amt (by omega) hs
    exact ⟨by omega, hc⟩
  | case3 code_ptr positive amount c h hnp ih =>
    intro p amt h1 hs
    rw [sum_loop.eq_def, h] at hs
    simp only [hnp, if_false, eq_self_iff_true, if_true] at hs
    obtain ⟨hle, hc⟩ := ih p amt (by omega) hs
    exact ⟨by omega, hc⟩
  | case4 code_ptr positive negative amount c h hnp hnn =>
    intro p amt h1 hs
    rw [sum_loop.eq_def, h] at hs
    simp only [hnp, hnn, if_false, Option.some.injEq, Prod.mk.injEq] at hs
    obtain ⟨hp, -⟩ := hs
    have hp1 : p + 1 = code_ptr := by omega
    exact ⟨by omega, c, by rw [hp1]; exact h, hnp, hnn⟩

/-- Entry-level consequence for `sum_repeatable_commands` as it is called by
`parse_basic_instructions`: the call happens at a position holding one of the
two scanned characters, so a normal return strictly advances the scan and
stops at an in-range character that is not scanned. -/
theorem sum_commands_progress (code : List Char) (code_ptr : Nat)
    (positive negative c : Char) (p : Nat) (amt : Int)
    (h : code.get? code_ptr = some c) (hc : c = positive ∨ c = negative)
    (hs : sum_repeatable_commands code code_ptr positive negative = some (p, amt)) :
    code_ptr < p + 1 ∧ ∃ c', code.get? (p + 1) = some c' ∧ c' ≠ positive ∧ c' ≠ negative := by
  rw [sum_repeatable_commands, sum_loop.eq_def, h] at hs
  rcases hc with hc | hc
  · subst hc
    simp only [eq_self_iff_true, if_true] at hs
    obtain ⟨hle, hc'⟩ := sum_loop_some_stop code (code_ptr + 1) _ _ _ p amt (by omega) hs
    exact ⟨by omega, hc'⟩
  · subst hc
    by_cases hcp : c = positive
    · subst hcp
      simp only [eq_self_iff_true, if_true] at hs
      obtain ⟨hle, hc'⟩ := sum_loop_some_stop code (code_ptr + 1) _ _ _ p amt (by omega) hs
      exact ⟨by omega, hc'⟩
    · simp only [hcp, if_false, eq_self_iff_true, if_true] at hs
      obtain ⟨hle, hc'⟩ := sum_loop_some_stop code (code_ptr + 1) _ _ _ p amt (by omega) hs
      exact ⟨by omega, hc'⟩

/-- The `while code_ptr < max_code_ptr` loop of `parse_basic_instructions` in
`__main__.py`, with the growing `bytecode` list as an explicit accumulator.
`cmd in "+-"` and `cmd in "><"` dispatch to `sum_repeatable_commands` (whose
`IndexError`, modelled as `none`, propagates); `[`, `]`, `,`, `.` append a
unit instruction; any other character is skipped. -/
def parse_loop (code : List Char) (code_ptr : Nat) (bytecode : Bytecode) :
    Option Bytecode :=
  match h : code.get? code_ptr with
  | none => some bytecode
  | some cmd =>
    if hpm : cmd = '+' ∨ cmd = '-' then
      match hs : sum_repeatable_commands code code_ptr '+' '-' with
      | none => none
      | some (p, amount) => parse_loop code (p + 1) (bytecode ++ [IncCell amount])
    else if hlr : cmd = '>' ∨ cmd = '<' then
      match hs : sum_repeatable_commands code code_ptr '>' '<' with
      | none => none
      | some (p, amount) => parse_loop code (p + 1) (bytecode ++ [IncPtr amount])
    else if cmd = '[' then parse_loop code (code_ptr + 1) (bytecode ++ [StartLoop])
    else if cmd = ']' then parse_loop code (code_ptr + 1) (bytecode ++ [EndLoop])
    else if cmd = ',' then parse_loop code (code_ptr + 1) (bytecode ++ [Input])
    else if cmd = '.' then parse_loop code (code_ptr + 1) (bytecode ++ [Output])
    else parse_loop code (code_ptr + 1) bytecode
termination_by code.length - code_ptr
decreasing_by
  · obtain ⟨hl, -⟩ := List.get?_eq_some.mp h
    obtain ⟨hlt, -⟩ := sum_commands_progress code code_ptr '+' '-' cmd p amount h hpm hs
    omega
  · obtain ⟨hl, -⟩ := List.get?_eq_some.mp h
    obtain ⟨hlt, -⟩ := sum_commands_progress code code_ptr '>' '<' cmd p amount h hlr hs
    omega
  all_goals
    obtain ⟨hl, -⟩ := List.get?_eq_some.mp h
    omega

/-- Unfolding equation for `sum_loop` with a non-dependent match, convenient
for evaluation on concrete inputs. -/
theorem sum_loop_eq (code : List Char) (code_ptr : Nat) (positive negative : Char)
    (amount : Int) :
    sum_loop code code_ptr positive negative amount =
      match code.get? code_ptr with
      | none => none
      | some c =>
        if c = positive then sum_loop code (code_ptr + 1) positive negative (amount + 1)
        else if c = negative then sum_loop code (code_ptr + 1) positive negative (amount - 1)
        else some (code_ptr - 1, amount) := by
  rw [sum_loop.eq_def]
  cases hc : code.get? code_ptr <;> simp

/-- Unfolding equation for `parse_loop` with a non-dependent match, convenient
for evaluation on concrete inputs. -/
theorem parse_loop_eq (code : List Char) (code_ptr : Nat) (bytecode : Bytecode) :
    parse_loop code code_ptr bytecode =
      match code.get? code_ptr with
      | none => some bytecode
      | some cmd =>
        if cmd = '+' ∨ cmd = '-' then
          match sum_repeatable_commands code code_ptr '+' '-' with
          | none => none
          | some (p, amount) => parse_loop code (p + 1) (bytecode ++ [IncCell amount])
        else if cmd = '>' ∨ cmd = '<' then
          match sum_repeatable_commands code code_ptr '>' '<' with
          | none => none
          | some (p, amount) => parse_loop code (p + 1) (bytecode ++ [IncPtr amount])
        else if cmd = '[' then parse_loop code (code_ptr + 1) (bytecode ++ [StartLoop])
        else if cmd = ']' then parse_loop code (code_ptr + 1) (bytecode ++ [EndLoop])
        else if cmd = ',' then parse_loop code (code_ptr + 1) (bytecode ++ [Input])
        else if cmd = '.' then parse_loop code (code_ptr + 1) (bytecode ++ [Output])
        else parse_loop code (code_ptr + 1) bytecode := by
  rw [parse_loop.eq_def]
  cases hc : code.get? code_ptr with
  | none => simp
  | some cmd =>
    by_cases h1 : cmd = '+' ∨ cmd = '-'
    · simp only [dif_pos h1, if_pos h1]
      cases hs : sum_repeatable_commands code code_ptr '+' '-' <;> simp
    · by_cases h2 : cmd = '>' ∨ cmd = '<'
      · simp only [dif_neg h1, if_neg h1, dif_pos h2, if_pos h2]
        cases hs : sum_repeatable_commands code code_ptr '>' '<' <;> simp
      · simp only [dif_neg h1, if_neg h1, dif_neg h2, if_neg h2]

/-- `parse_basic_instructions` of `__main__.py`. -/
def parse_basic_instructions (code : List Char) : Option Bytecode :=
  parse_loop code 0 []

/-- `build_bytecode` of `__main__.py`: run-length grouping followed by the
peephole pass.  An `IndexError` inside the grouper (modelled as `none`)
aborts compilation. -/
def build_bytecode (code : List Char) : Option Bytecode :=
  (parse_basic_instructions code).map optimize_patterns

example : optimize_patterns [StartLoop, IncCell 2, EndLoop] = [Clear] := by decide

example : optimize_patterns [StartLoop, IncCell (-1), IncPtr (-2), IncCell 1, IncPtr 2, EndLoop]
    = [Transfer (-2)] := by decide

example : optimize_patterns [StartLoop, IncCell (-1), IncPtr (-2), IncCell 1, IncPtr 3, EndLoop]
    = [StartLoop, IncCell (-1), IncPtr (-2), IncCell 1, IncPtr 3, EndLoop] := by decide

/-- Python list indexing: index `i` into a list of length `len` is valid iff
`-len ≤ i < len`; a negative index counts from the end (`tape[-1]` is the
last cell).  Out of range raises `IndexError`, modelled as `none`. -/
def listIndex (len : Nat) (i : Int) : Option Nat :=
  if 0 ≤ i then
    if i < (len : Int) then some i.toNat else none
  else
    if -(len : Int) ≤ i then some (i + len).toNat else none

/-- `tape[i]` in the emitted Python. -/
def tapeRead (tape : List Int) (i : Int) : Option Int :=
  match listIndex tape.length i with
  | none => none
  | some n => tape.get? n

/-- `tape[i] = v` in the emitted Python. -/
def tapeWrite (tape : List Int) (i : Int) (v : Int) : Option (List Int) :=
  match listIndex tape.length i with
  | none => none
  | some n => some (tape.set n v)

/-- State of the Python program emitted by `build_python_code`: the 512-cell
tape of (unbounded) Python integers, the pointer, the program counter into
the bytecode, the values printed so far, and the remaining `input()` lines. -/
structure VMState where
  tape : List Int
  ptr : Int
  pc : Nat
  output : List Int
  inputs : List (List Char)
  deriving DecidableEq, Repr

/-- Offset of the matching `EndLoop` in a bytecode suffix, at nesting
`depth`. -/
def scanEnd : Bytecode → Nat → Option Nat
  | [], _ => none
  | StartLoop :: rest, depth => (scanEnd rest (depth + 1)).map (· + 1)
  | EndLoop :: rest, depth =>
      if depth = 0 then some 0 else (scanEnd rest (depth - 1)).map (· + 1)
  | _ :: rest, depth => (scanEnd rest depth).map (· + 1)

/-- Position of the `EndLoop` matching the `StartLoop` at `pc`. -/
def findMatchEnd (b : Bytecode) (pc : Nat) : Option Nat :=
  (scanEnd (b.drop (pc + 1)) 0).map (fun off => pc + 1 + off)

/-- Offset (scanning backwards) of the matching `StartLoop` in a reversed
bytecode prefix, at nesting `depth`. -/
def scanStart : Bytecode → Nat → Option Nat
  | [], _ => none
  | EndLoop :: rest, depth => (scanStart rest (depth + 1)).map (· + 1)
  | StartLoop :: rest, depth =>
      if depth = 0 then some 0 else (scanStart rest (depth - 1)).map (· + 1)
  | _ :: rest, depth => (scanStart rest depth).map (· + 1)

/-- Position of the `StartLoop` matching the `EndLoop` at `pc`. -/
def findMatchStart (b : Bytecode) (pc : Nat) : Option Nat :=
  (scanStart (b.take pc).reverse 0).map (fun off => pc - 1 - off)

inductive StepRes : Type
  | next (s : VMState)
  | halt
  | fault
  deriving DecidableEq, Repr

/-- One instruction of the Python program emitted by `build_python_code`,
statement for statement:

* `IncCell amount` → `tape[ptr] = (tape[ptr] + amount) % 256`
* `IncPtr amount`  → `ptr += amount`
* `StartLoop`      → `while tape[ptr] != 0:` (test; on zero, skip past the
  matching `EndLoop`)
* `EndLoop`        → end of the `while` body: control returns to the test
* `Input`          → `tape[ptr] = ord(input()[:1] or '\x5c0')`; at end of
  input Python's `input()` raises `EOFError` (a fault); an available line
  contributes the code point of its first character, `0` if it is empty
* `Output`         → `print(chr(tape[ptr]), end='')`
* `Clear`          → `tape[ptr] = 0`
* `Transfer d`     → `tape[ptr + d] += tape[ptr]` then `tape[ptr] = 0`
  (note: no `% 256` is emitted for `Transfer`)

All tape accesses use Python list indexing (`tapeRead`/`tapeWrite`); an
`IndexError` is a fault.  Past the last instruction the program halts. -/
def step (b : Bytecode) (s : VMState) : StepRes :=
  match b.get? s.pc with
  | none => .halt
  | some (IncCell amount) =>
    match tapeRead s.tape s.ptr with
    | none => .fault
    | some v =>
      match tapeWrite s.tape s.ptr ((v + amount) % 256) with
      | none => .fault
      | some t => .next { s with tape := t, pc := s.pc + 1 }
  | some (IncPtr amount) => .next { s with ptr := s.ptr + amount, pc := s.pc + 1 }
  | some StartLoop =>
    match tapeRead s.tape s.ptr with
    | none => .fault
    | some v =>
      if v ≠ 0 then .next { s with pc := s.pc + 1 }
      else
        match findMatchEnd b s.pc with
        | none => .fault
        | some j => .next { s with pc := j + 1 }
  | some EndLoop =>
    match findMatchStart b s.pc with
    | none => .fault
    | some j => .next { s with pc := j }
  | some Input =>
    match s.inputs with
    | [] => .fault
    | line :: rest =>
      match tapeWrite s.tape s.ptr (match line with | [] => 0 | c :: _ => (c.toNat : Int)) with
      | none => .fault
      | some t => .next { s with tape := t, inputs := rest, pc := s.pc + 1 }
  | some Output =>
    match tapeRead s.tape s.ptr with
    | none => .fault
    | some v => .next { s with output := s.output ++ [v], pc := s.pc + 1 }
  | some Clear =>
    match tapeWrite s.tape s.ptr 0 with
    | none => .fault
    | some t => .next { s with tape := t, pc := s.pc + 1 }
  | some (Transfer distance) =>
    match tapeRead s.tape (s.ptr + distance), tapeRead s.tape s.ptr with
    | some tv, some sv =>
      match tapeWrite s.tape (s.ptr + distance) (tv + sv) with
      | none => .fault
      | some t1 =>
        match tapeWrite t1 s.ptr 0 with
        | none => .fault
        | some t2 => .next { s with tape := t2, pc := s.pc + 1 }
    | _, _ => .fault

inductive RunRes : Type
  | finished (s : VMState)
  | fault (s : VMState)
  | fuelOut (s : VMState)
  deriving DecidableEq, Repr

/-- Run the emitted Python program for at most `fuel` steps.  A fault
carries the state at the faulting instruction, so the output already
printed is retained. -/
def run (b : Bytecode) : Nat → VMState → RunRes
  | 0, s => .fuelOut s
  | fuel + 1, s =>
    match step b s with
    | .halt => .finished s
    | .fault => .fault s
    | .next s' => run b fuel s'

/-- The initial state of the emitted Python program:
`tape = [0] * 512`, `ptr = 0`, with a given stream of `input()` lines. -/
def initState (inputs : List (List Char)) : VMState :=
  { tape := List.replicate 512 0, ptr := 0, pc := 0, output := [], inputs := inputs }

/-- The state carried by a run result (on a fault, the state at the faulting
instruction). -/
def resultState : RunRes → VMState
  | .finished s => s
  | .fault s => s
  | .fuelOut s => s

def isFinished : RunRes → Bool
  | .finished _ => true
  | _ => false

def isFault : RunRes → Bool
  | .fault _ => true
  | _ => false

/-- Modelled from the spec: state of the naive, unoptimized
character-by-character interpreter of section 4.4 of the spec (the reference
semantics of the refinement claim; this interpreter does not appear in
`src/`).  Cells are bytes kept in `[0, 256)`; the input collaborator is a
stream of bytes that yields the sentinel `0` once exhausted. -/
structure NaiveState where
  tape : List Nat
  ptr : Int
  pc : Nat
  output : List Nat
  inputs : List Nat
  deriving DecidableEq, Repr

/-- Modelled from the spec: reading `tape[ptr]` in the naive semantics.
Valid exactly when `0 ≤ ptr < tape length`; anything else is
`PointerOutOfBounds`. -/
def naiveRead (tape : List Nat) (ptr : Int) : Option Nat :=
  if 0 ≤ ptr ∧ ptr < (tape.length : Int) then tape.get? ptr.toNat else none

/-- Modelled from the spec: writing `tape[ptr]` in the naive semantics. -/
def naiveWrite (tape : List Nat) (ptr : Int) (v : Nat) : Option (List Nat) :=
  if 0 ≤ ptr ∧ ptr < (tape.length : Int) then some (tape.set ptr.toNat v) else none

/-- Offset of the matching `]` in a source suffix, at nesting `depth`. -/
def charScanEnd : List Char → Nat → Option Nat
  | [], _ => none
  | '[' :: rest, depth => (charScanEnd rest (depth + 1)).map (· + 1)
  | ']' :: rest, depth =>
      if depth = 0 then some 0 else (charScanEnd rest (depth - 1)).map (· + 1)
  | _ :: rest, depth => (charScanEnd rest depth).map (· + 1)

/-- Offset (scanning backwards) of the matching `[` in a reversed source
prefix, at nesting `depth`. -/
def charScanStart : List Char → Nat → Option Nat
  | [], _ => none
  | ']' :: rest, depth => (charScanStart rest (depth + 1)).map (· + 1)
  | '[' :: rest, depth =>
      if depth = 0 then some 0 else (charScanStart rest (depth - 1)).map (· + 1)
  | _ :: rest, depth => (charScanStart rest depth).map (· + 1)

inductive NaiveStepRes : Type
  | next (s : NaiveState)
  | halt
  | fault
  deriving DecidableEq, Repr

/-- Modelled from the spec: one step of the naive unoptimized semantics,
dispatching on the single source character at `pc` (section 4.4's table with
every `AddCell`/`MovePtr` amount `±1`; any non-command character is skipped).
Cell arithmetic is modulo 256 in both directions; `,` reads the next input
byte or the sentinel `0` when exhausted; `[` falls through on a nonzero cell
and otherwise jumps just past its matching `]`; `]` jumps back to its
matching `[` on a nonzero cell. -/
def naiveStep (src : List Char) (s : NaiveState) : NaiveStepRes :=
  match src.get? s.pc with
  | none => .halt
  | some ch =>
    if ch = '+' then
      match naiveRead s.tape s.ptr with
      | none => .fault
      | some v =>
        match naiveWrite s.tape s.ptr ((v + 1) % 256) with
        | none => .fault
        | some t => .next { s with tape := t, pc := s.pc + 1 }
    else if ch = '-' then
      match naiveRead s.tape s.ptr with
      | none => .fault
      | some v =>
        match naiveWrite s.tape s.ptr ((v + 255) % 256) with
        | none => .fault
        | some t => .next { s with tape := t, pc := s.pc + 1 }
    else if ch = '>' then .next { s with ptr := s.ptr + 1, pc := s.pc + 1 }
    else if ch = '<' then .next { s with ptr := s.ptr - 1, pc := s.pc + 1 }
    else if ch = '[' then
      match naiveRead s.tape s.ptr with
      | none => .fault
      | some v =>
        if v ≠ 0 then .next { s with pc := s.pc + 1 }
        else
          match (charScanEnd (src.drop (s.pc + 1)) 0).map (fun off => s.pc + 1 + off) with
          | none => .fault
          | some j => .next { s with pc := j + 1 }
    else if ch = ']' then
      match naiveRead s.tape s.ptr with
      | none => .fault
      | some v =>
        if v = 0 then .next { s with pc := s.pc + 1 }
        else
          match (charScanStart (src.take s.pc).reverse 0).map (fun off => s.pc - 1 - off) with
          | none => .fault
          | some j => .next { s with pc := j }
    else if ch = ',' then
      match naiveWrite s.tape s.ptr (s.inputs.headD 0) with
      | none => .fault
      | some t => .next { s with tape := t, inputs := s.inputs.tail, pc := s.pc + 1 }
    else if ch = '.' then
      match naiveRead s.tape s.ptr with
      | none => .fault
      | some v => .next { s with output := s.output ++ [v], pc := s.pc + 1 }
    else .next { s with pc := s.pc + 1 }

inductive NaiveRunRes : Type
  | finished (s : NaiveState)
  | fault (s : NaiveState)
  | fuelOut (s : NaiveState)
  deriving DecidableEq, Repr

/-- Modelled from the spec: run the naive semantics for at most `fuel`
steps. -/
def naiveRun (src : List Char) : Nat → NaiveState → NaiveRunRes
  | 0, s => .fuelOut s
  | fuel + 1, s =>
    match naiveStep src s with
    | .halt => .finished s
    | .fault => .fault s
    | .next s' => naiveRun src fuel s'

/-- Modelled from the spec: the naive semantics' initial state, with a
512-cell zero tape. -/
def naiveInit (inputs : List Nat) : NaiveState :=
  { tape := List.replicate 512 0, ptr := 0, pc := 0, output := [], inputs := inputs }

def naiveResultState : NaiveRunRes → NaiveState
  | .finished s => s
  | .fault s => s
  | .fuelOut s => s

def naiveIsFinished : NaiveRunRes → Bool
  | .finished _ => true
  | _ => false

/-! ## Claims -/

/-- C1: the compile-then-execute pipeline is claimed to agree, on every
source string, with the naive character-by-character semantics.  It does
not: on the source `"+"` the grouper reads past the end of the source and
compilation aborts with an `IndexError` (`build_bytecode` returns `none`),
so the pipeline executes nothing, while the naive semantics runs to
completion with output `[]` and `tape[0] = 1`. -/
theorem c1_pipeline_diverges_from_naive :
    build_bytecode ['+'] = none ∧
      naiveIsFinished (naiveRun ['+'] 5 (naiveInit [])) = true ∧
      (naiveResultState (naiveRun ['+'] 5 (naiveInit []))).tape.get? 0 = some 1 ∧
      (naiveResultState (naiveRun ['+'] 5 (naiveInit []))).output = [] := by
  refine ⟨?_, ?_, ?_, ?_⟩
  · simp [build_bytecode, parse_basic_instructions, parse_loop_eq,
      sum_repeatable_commands, sum_loop_eq]
  · decide
  · decide
  · decide

/-- C2: the optimizer is claimed to rewrite `StartLoop, AddCell(n), LoopEnd`
to `Clear` only when `n = ±1`.  The code's pattern is `IncCell(_)`: it
matches every amount, so the window with `n = 2` is also rewritten to
`Clear`, contradicting the claim (and, for odd starting cell values, the
loop `[++]` does not terminate while `Clear` does). -/
theorem c2_clear_matches_any_amount :
    optimize_patterns [StartLoop, IncCell 2, EndLoop] = [Clear] ∧
      optimize_patterns [StartLoop, IncCell 0, EndLoop] = [Clear] := by
  exact ⟨by decide, by decide⟩

/-- The tape used in the `Transfer` divergence: `tape[0] = 200`,
`tape[1] = 200`, all other cells `0`. -/
def transferTape : List Int :=
  ((List.replicate 512 (0 : Int)).set 0 200).set 1 200

/-- C3: `Transfer(d)` is claimed to set the target cell to
`(target + source) mod 256`.  The emitted statement is
`tape[ptr + d] += tape[ptr]` with no `% 256`: from `tape[0] = tape[1] = 200`,
executing `Transfer 1` leaves `tape[1] = 400`, not `(200 + 200) % 256 = 144`
(the source cell is zeroed and the pointer is unchanged as claimed). -/
theorem c3_transfer_missing_mod :
    isFinished (run [Transfer 1] 2
      { tape := transferTape, ptr := 0, pc := 0, output := [], inputs := [] }) = true ∧
    (resultState (run [Transfer 1] 2
      { tape := transferTape, ptr := 0, pc := 0, output := [], inputs := [] })).tape.get? 1
        = some 400 ∧
    (resultState (run [Transfer 1] 2
      { tape := transferTape, ptr := 0, pc := 0, output := [], inputs := [] })).tape.get? 1
        ≠ some ((200 + 200) % 256) ∧
    (resultState (run [Transfer 1] 2
      { tape := transferTape, ptr := 0, pc := 0, output := [], inputs := [] })).tape.get? 0
        = some 0 ∧
    (resultState (run [Transfer 1] 2
      { tape := transferTape, ptr := 0, pc := 0, output := [], inputs := [] })).ptr = 0 := by
  refine ⟨by decide, by decide, by decide, by decide, by decide⟩

/-- C5 counterexample: the unbalanced source `"["` is claimed to raise
`UnbalancedBrackets` and produce no Program, but the compiler has no bracket
check whatsoever: compilation succeeds and produces the one-instruction
Program `[StartLoop]`. -/
theorem c5_counterexample_unbalanced_compiles :
    build_bytecode ['['] = some [StartLoop] := by
  simp [build_bytecode, parse_basic_instructions, parse_loop_eq, optimize_patterns]

/-- C5 amended: compilation performs no bracket-balance checking and raises
no error on unbalanced brackets; any unbalanced source (not ending in one of
`+ - < >`) still compiles to a Program.  The spec's own examples: `"["`
yields `[StartLoop]` and `"]]["` yields `[EndLoop, EndLoop, StartLoop]`. -/
theorem c5_amended_no_bracket_check :
    build_bytecode ['['] = some [StartLoop] ∧
      build_bytecode [']', ']', '['] = some [EndLoop, EndLoop, StartLoop] := by
  constructor
  · simp [build_bytecode, parse_basic_instructions, parse_loop_eq, optimize_patterns]
  · simp [build_bytecode, parse_basic_instructions, parse_loop_eq, optimize_patterns]

/-- A successful step never removes anything from the output: it appends
(at most one value). -/
theorem step_next_output (b : Bytecode) (s s' : VMState) (h : step b s = .next s') :
    ∃ t, s'.output = s.output ++ t := by
  rw [step.eq_def] at h
  repeat' split at h
  all_goals try (cases h)
  all_goals first
    | exact ⟨_, rfl⟩
    | exact ⟨[], by simp⟩

/-- A run that ends in a fault keeps everything already output: the output
at the fault extends the starting output. -/
theorem run_fault_output :
    ∀ (fuel : Nat) (b : Bytecode) (s s' : VMState),
      run b fuel s = .fault s' → ∃ t, s'.output = s.output ++ t := by
  intro fuel
  induction fuel with
  | zero =>
    intro b s s' h
    simp only [run] at h
    exact absurd h (by simp)
  | succ n ih =>
    intro b s s' h
    simp only [run] at h
    cases hstep : step b s with
    | halt => rw [hstep] at h; exact absurd h (by simp)
    | fault =>
      rw [hstep] at h
      simp only [RunRes.fault.injEq] at h
      subst h
      exact ⟨[], by simp⟩
    | next s2 =>
      rw [hstep] at h
      simp only [] at h
      obtain ⟨t1, h1⟩ := step_next_output b s s2 hstep
      obtain ⟨t2, h2⟩ := ih b s2 s' h
      exact ⟨t1 ++ t2, by rw [h2, h1, List.append_assoc]⟩

/-- Where `listIndex` is defined (Python's index validity). -/
theorem listIndex_none_iff (len : Nat) (i : Int) :
    listIndex len i = none ↔ i < -(len : Int) ∨ (len : Int) ≤ i := by
  unfold listIndex
  split_ifs with h1 h2 h3 <;> simp <;> omega

/-- A valid Python index denotes a position inside the list. -/
theorem listIndex_some_lt (len : Nat) (i : Int) (n : Nat)
    (h : listIndex len i = some n) : n < len := by
  unfold listIndex at h
  split_ifs at h with h1 h2 h3 <;> simp only [Option.some.injEq] at h <;> omega

/-- Reading `tape[i]` in the emitted Python raises `IndexError` exactly when
`i` falls outside `[-len, len)`. -/
theorem tapeRead_none_iff (tape : List Int) (i : Int) :
    tapeRead tape i = none ↔
      i < -(tape.length : Int) ∨ (tape.length : Int) ≤ i := by
  unfold tapeRead
  cases hli : listIndex tape.length i with
  | none =>
    simp only [true_iff]
    exact (listIndex_none_iff tape.length i).mp hli
  | some n =>
    have hn := listIndex_some_lt tape.length i n hli
    rw [List.get?_eq_none]
    constructor
    · intro hc; omega
    · intro hc
      exact absurd hli (by rw [(listIndex_none_iff tape.length i).mpr hc]; simp)

/-- C6 counterexample: a negative pointer is claimed to always be an error,
but the emitted Python indexes the tape with Python semantics, where `-1`
addresses the last cell.  The source `"<+."` compiles and runs to
completion: it increments `tape[-1]` (cell 511) and outputs `1` with no
error ever raised. -/
theorem c6_counterexample_negative_ptr_runs :
    build_bytecode ['<', '+', '.'] = some [IncPtr (-1), IncCell 1, Output] ∧
      isFinished (run [IncPtr (-1), IncCell 1, Output] 10 (initState [])) = true ∧
      (resultState (run [IncPtr (-1), IncCell 1, Output] 10 (initState []))).output = [1] ∧
      (resultState (run [IncPtr (-1), IncCell 1, Output] 10 (initState []))).tape.get? 511
        = some 1 := by
  refine ⟨?_, by decide, by decide, by decide⟩
  simp [build_bytecode, parse_basic_instructions, parse_loop_eq,
    sum_repeatable_commands, sum_loop_eq, optimize_patterns]

/-- C6 amended: a cell access raises an error iff the index falls outside
`[-tape length, tape length)` — negative indices down to `-512` address
cells from the end, Python style, and only indices below `-512` or at/above
`512` fault.  A fault aborts the run with the output already emitted
retained (the prior output is an initial segment of the output at the
fault). -/
theorem c6_amended_python_index_bounds :
    (∀ (tape : List Int) (i : Int),
        tapeRead tape i = none ↔ i < -(tape.length : Int) ∨ (tape.length : Int) ≤ i) ∧
    (∀ (b : Bytecode) (fuel : Nat) (s s' : VMState),
        run b fuel s = .fault s' → s'.output.take s.output.length = s.output) := by
  constructor
  · exact tapeRead_none_iff
  · intro b fuel s s' h
    obtain ⟨t, ht⟩ := run_fault_output fuel b s s' h
    rw [ht]
    exact List.take_left s.output t

theorem c6_amended_witness :
    tapeRead (List.replicate 512 (0 : Int)) (-513) = none ∧
      ([(7 : Int)] : List Int).take ([(7 : Int)] : List Int).length = [(7 : Int)] :=
  ⟨(c6_amended_python_index_bounds.1 (List.replicate 512 (0 : Int)) (-513)).mpr (by decide),
   c6_amended_python_index_bounds.2 [Output] 1
     { tape := [], ptr := 0, pc := 0, output := [7], inputs := [] }
     { tape := [], ptr := 0, pc := 0, output := [7], inputs := [] } (by decide)⟩

/-- C7 counterexample: with the input source exhausted, an `Input`
instruction is claimed to store the sentinel `0` and raise no error.  The
emitted statement is `tape[ptr] = ord(input()[:1] or '\x5c0')`, and Python's
`input()` raises `EOFError` at end of input: the run of `","` with no input
available faults instead of continuing. -/
theorem c7_counterexample_eof_faults :
    build_bytecode [','] = some [Input] ∧
      isFault (run [Input] 2 (initState [])) = true := by
  refine ⟨?_, by decide⟩
  simp [build_bytecode, parse_basic_instructions, parse_loop_eq, optimize_patterns]

/-- C7 amended: only an *available but empty* input line yields the sentinel
`0` (the `or '\x5c0'` fallback); a genuinely exhausted input stream makes
`input()` raise `EOFError` and the run faults.  With a line available, the
cell receives the code point of its first character, `0` if the line is
empty, and execution continues. -/
theorem c7_amended_input_semantics :
    (∀ (b : Bytecode) (s : VMState),
        b.get? s.pc = some Input → s.inputs = [] → step b s = .fault) ∧
    (∀ (b : Bytecode) (s : VMState) (line : List Char) (rest : List (List Char)) (t : List Int),
        b.get? s.pc = some Input → s.inputs = line :: rest →
        tapeWrite s.tape s.ptr (match line with | [] => 0 | c :: _ => (c.toNat : Int)) = some t →
        step b s = .next { s with tape := t, inputs := rest, pc := s.pc + 1 }) := by
  constructor
  · intro b s hb hi
    simp only [step.eq_def, hb, hi]
  · intro b s line rest t hb hi ht
    simp only [step.eq_def, hb, hi, ht]

theorem c7_amended_witness :
    step [Input] (initState []) = .fault ∧
      step [Input] (initState [['a']]) =
        .next { tape := (List.replicate 512 (0 : Int)).set 0 97, ptr := 0, pc := 1,
                output := [], inputs := [] } := by
  constructor
  · exact c7_amended_input_semantics.1 [Input] (initState []) rfl rfl
  · have h := c7_amended_input_semantics.2 [Input] (initState [['a']]) ['a'] []
      ((List.replicate 512 (0 : Int)).set 0 97) rfl rfl (by decide)
    exact h.trans (by decide)

/-- C4: the transfer window
`StartLoop, IncCell a, IncPtr d1, IncCell b, IncPtr d2, EndLoop`
is rewritten to the single `Transfer d1` exactly when `a = -1`, `b = 1` and
`d1 = -d2`; any other variant passes through as the six ordinary
instructions (the optimizer then continues after the window). -/
theorem c4_transfer_window_exactly_when_opposite :
    ∀ (a b d1 d2 : Int) (rest : Bytecode),
      optimize_patterns
          (StartLoop :: IncCell a :: IncPtr d1 :: IncCell b :: IncPtr d2 :: EndLoop :: rest) =
        if a = -1 ∧ b = 1 ∧ d1 = -d2 then Transfer d1 :: optimize_patterns rest
        else StartLoop :: IncCell a :: IncPtr d1 :: IncCell b :: IncPtr d2 :: EndLoop ::
          optimize_patterns rest := by
  intro a b d1 d2 rest
  simp only [optimize_patterns]

/-- C8: executing `AddCell n` stores `(old value + n) mod 256` in the
current cell (Python's `%` is nonnegative for a positive modulus, so the
wraparound holds in both directions), leaves everything else unchanged and
advances the program counter by one. -/
theorem c8_addcell_wraps_mod256 :
    ∀ (b : Bytecode) (s : VMState) (n : Int) (j : Nat) (v : Int),
      b.get? s.pc = some (IncCell n) →
      listIndex s.tape.length s.ptr = some j →
      s.tape.get? j = some v →
      step b s = .next { s with tape := s.tape.set j ((v + n) % 256), pc := s.pc + 1 } := by
  intro b s n j v hb hli hv
  simp only [step.eq_def, hb, tapeRead, tapeWrite, hli, hv]

theorem c8_witness :
    step [IncCell 1] { tape := [255], ptr := 0, pc := 0, output := [], inputs := [] } =
      .next { tape := [0], ptr := 0, pc := 1, output := [], inputs := [] } ∧
    step [IncCell (-1)] { tape := [0], ptr := 0, pc := 0, output := [], inputs := [] } =
      .next { tape := [255], ptr := 0, pc := 1, output := [], inputs := [] } := by
  constructor
  · have h := c8_addcell_wraps_mod256 [IncCell 1]
      { tape := [255], ptr := 0, pc := 0, output := [], inputs := [] } 1 0 255
      rfl (by decide) rfl
    exact h.trans (by decide)
  · have h := c8_addcell_wraps_mod256 [IncCell (-1)]
      { tape := [0], ptr := 0, pc := 0, output := [], inputs := [] } (-1) 0 0
      rfl (by decide) rfl
    exact h.trans (by decide)

/-- Whether a bytecode suffix begins with the optimizer's clear window. -/
def startsClear : Bytecode → Bool
  | StartLoop :: IncCell _ :: EndLoop :: _ => true
  | _ => false

/-- Whether a bytecode suffix begins with the optimizer's transfer window
(shape and guard). -/
def startsTransfer : Bytecode → Bool
  | StartLoop :: IncCell a :: IncPtr d1 :: IncCell b :: IncPtr d2 :: EndLoop :: _ =>
      if a = -1 ∧ b = 1 ∧ d1 = -d2 then true else false
  | _ => false

/-- No suffix of `l` begins with a window the optimizer rewrites. -/
def noPattern (l : Bytecode) : Prop :=
  ∀ t, t <:+ l → startsClear t = false ∧ startsTransfer t = false

theorem startsClear_eq_true (l : Bytecode) :
    startsClear l = true ↔ ∃ a t, l = StartLoop :: IncCell a :: EndLoop :: t := by
  rw [startsClear.eq_def]
  split
  · simp only [true_iff]
    exact ⟨_, _, rfl⟩
  · rename_i hno
    simp only [Bool.false_eq_true, false_iff, not_exists]
    intro a t heq
    exact hno a t heq

theorem startsTransfer_eq_true (l : Bytecode) :
    startsTransfer l = true ↔
      ∃ a d1 b d2 t,
        l = StartLoop :: IncCell a :: IncPtr d1 :: IncCell b :: IncPtr d2 :: EndLoop :: t ∧
          (a = -1 ∧ b = 1 ∧ d1 = -d2) := by
  rw [startsTransfer.eq_def]
  split
  · rename_i a d1 b d2 t
    split_ifs with hg
    · simp only [true_iff]
      exact ⟨a, d1, b, d2, t, rfl, hg⟩
    · simp only [Bool.false_eq_true, false_iff, not_exists]
      intro a' d1' b' d2' t' ⟨heq, hg'⟩
      injection heq with e1 heq; injection heq with e2 heq; injection heq with e3 heq
      injection heq with e4 heq; injection heq with e5 heq
      injection e2 with e2; injection e3 with e3; injection e4 with e4; injection e5 with e5
      subst e2; subst e3; subst e4; subst e5
      exact hg hg'
  · rename_i hno
    simp only [Bool.false_eq_true, false_iff, not_exists]
    intro a d1 b d2 t ⟨heq, hg⟩
    exact hno a d1 b d2 t heq

theorem noPattern_nil : noPattern [] := by
  intro t ht
  rw [List.suffix_nil.mp ht]
  exact ⟨rfl, rfl⟩

theorem noPattern_cons (x : Instruction) (l : Bytecode)
    (h1 : startsClear (x :: l) = false) (h2 : startsTransfer (x :: l) = false)
    (h3 : noPattern l) : noPattern (x :: l) := by
  intro t ht
  rcases List.suffix_cons_iff.mp ht with rfl | ht'
  · exact ⟨h1, h2⟩
  · exact h3 t ht'

theorem noPattern_tail (x : Instruction) (l : Bytecode) (h : noPattern (x :: l)) :
    noPattern l := by
  intro t ht
  exact h t (ht.trans (List.suffix_cons x l))

/-- The optimizer copies a single instruction whenever neither window
matches at the current position. -/
theorem opt_pass (i : Instruction) (rest : Bytecode)
    (hc : ∀ (a : Int) (r1 : Bytecode), i = StartLoop → rest = IncCell a :: EndLoop :: r1 → False)
    (ht : ∀ (a l b r : Int) (r1 : Bytecode), i = StartLoop →
      rest = IncCell a :: IncPtr l :: IncCell b :: IncPtr r :: EndLoop :: r1 → False) :
    optimize_patterns (i :: rest) = i :: optimize_patterns rest := by
  rw [optimize_patterns.eq_def]
  split
  · rename_i a r1 heq
    injection heq with h1 h2
    exact (hc a r1 h1 h2).elim
  · rename_i a l b r r1 heq
    injection heq with h1 h2
    exact (ht a l b r r1 h1 h2).elim
  · rename_i i2 r2 heq
    injection heq with h1 h2
    rw [h1, h2]
  · rename_i heq
    exact absurd heq (by simp)

/-- If the optimizer's output begins with an instruction that the optimizer
never synthesizes at the head of a rewrite (not `Clear`, not `Transfer`,
not `StartLoop`), the input began with that same instruction and the rest
of the output is the optimization of the rest of the input. -/
theorem opt_eq_cons_inv (l : Bytecode) (x : Instruction) (t : Bytecode)
    (hx1 : x ≠ Clear) (hx2 : ∀ d, x ≠ Transfer d) (hx3 : x ≠ StartLoop)
    (h : optimize_patterns l = x :: t) :
    ∃ l', l = x :: l' ∧ t = optimize_patterns l' := by
  induction l using optimize_patterns.induct with
  | case1 a rest ih =>
    simp only [optimize_patterns] at h
    injection h with h1 h2
    exact (hx1 h1.symm).elim
  | case2 a d1 b d2 rest hg ih =>
    simp only [optimize_patterns, if_pos hg] at h
    injection h with h1 h2
    exact (hx2 d1 h1.symm).elim
  | case3 a d1 b d2 rest hg ih =>
    simp only [optimize_patterns, if_neg hg] at h
    injection h with h1 h2
    exact (hx3 h1.symm).elim
  | case4 i rest hcs hts ih =>
    rw [opt_pass i rest hcs hts] at h
    injection h with h1 h2
    exact ⟨rest, by rw [h1], h2.symm⟩
  | case5 =>
    exact absurd h (by simp [optimize_patterns])

/-- A bytecode sequence with no rewritable window is a fixed point of the
optimizer. -/
theorem opt_fixed (l : Bytecode) (h : noPattern l) : optimize_patterns l = l := by
  induction l using optimize_patterns.induct with
  | case1 a rest ih =>
    exact absurd (h _ (List.suffix_refl _)).1 (by simp [startsClear])
  | case2 a d1 b d2 rest hg ih =>
    have h2 := (h _ (List.suffix_refl _)).2
    rw [startsTransfer.eq_def] at h2
    simp only [if_pos hg] at h2
    exact absurd h2 (by simp)
  | case3 a d1 b d2 rest hg ih =>
    have hch := ih (noPattern_tail _ _ h)
    simp only [optimize_patterns, List.cons.injEq, eq_self_iff_true, true_and] at hch
    simp only [optimize_patterns, if_neg hg]
    rw [hch]
  | case4 i rest hcs hts ih =>
    rw [opt_pass i rest hcs hts, ih (noPattern_tail _ _ h)]
  | case5 => rfl

/-- After one optimizer pass no rewritable window remains: every window in
the output stems from adjacent pass-through instructions, whose window was
already inspected (and rejected) on the input. -/
theorem opt_noPattern (l : Bytecode) : noPattern (optimize_patterns l) := by
  induction l using optimize_patterns.induct with
  | case1 a rest ih =>
    simp only [optimize_patterns]
    exact noPattern_cons _ _ rfl rfl ih
  | case2 a d1 b d2 rest hg ih =>
    simp only [optimize_patterns, if_pos hg]
    exact noPattern_cons _ _ rfl rfl ih
  | case3 a d1 b d2 rest hg ih =>
    simp only [optimize_patterns] at ih
    simp only [optimize_patterns, if_neg hg]
    refine noPattern_cons _ _ rfl ?_ ih
    exact if_neg hg
  | case4 i rest hcs hts ih =>
    rw [opt_pass i rest hcs hts]
    refine noPattern_cons _ _ ?_ ?_ ih
    · cases hsc : startsClear (i :: optimize_patterns rest) with
      | false => rfl
      | true =>
        exfalso
        obtain ⟨a, t, heq⟩ := (startsClear_eq_true _).mp hsc
        injection heq with h1 h2
        obtain ⟨r1, hr1, e1⟩ :=
          opt_eq_cons_inv rest (IncCell a) _ (by simp) (by simp) (by simp) h2
        obtain ⟨r2, hr2, e2⟩ :=
          opt_eq_cons_inv r1 EndLoop _ (by simp) (by simp) (by simp) e1.symm
        exact hcs a r2 h1 (by rw [hr1, hr2])
    · cases hst : startsTransfer (i :: optimize_patterns rest) with
      | false => rfl
      | true =>
        exfalso
        obtain ⟨a, d1, b, d2, t, heq, hg⟩ := (startsTransfer_eq_true _).mp hst
        injection heq with h1 h2
        obtain ⟨r1, hr1, e1⟩ :=
          opt_eq_cons_inv rest (IncCell a) _ (by simp) (by simp) (by simp) h2
        obtain ⟨r2, hr2, e2⟩ :=
          opt_eq_cons_inv r1 (IncPtr d1) _ (by simp) (by simp) (by simp) e1.symm
        obtain ⟨r3, hr3, e3⟩ :=
          opt_eq_cons_inv r2 (IncCell b) _ (by simp) (by simp) (by simp) e2.symm
        obtain ⟨r4, hr4, e4⟩ :=
          opt_eq_cons_inv r3 (IncPtr d2) _ (by simp) (by simp) (by simp) e3.symm
        obtain ⟨r5, hr5, e5⟩ :=
          opt_eq_cons_inv r4 EndLoop _ (by simp) (by simp) (by simp) e4.symm
        exact hts a d1 b d2 r5 h1 (by rw [hr1, hr2, hr3, hr4, hr5])
  | case5 =>
    exact noPattern_nil

/-- C9: the peephole optimizer is idempotent: a second pass over its own
output rewrites nothing further, because no clear or transfer window
survives the first pass. -/
theorem c9_optimizer_idempotent :
    ∀ (b : Bytecode), optimize_patterns (optimize_patterns b) = optimize_patterns b :=
  fun b => opt_fixed _ (opt_noPattern b)
theorem parse_step_end (code : List Char) (ptr : Nat) (acc : Bytecode)
    (h : code.get? ptr = none) : parse_loop code ptr acc = some acc := by
  rw [parse_loop_eq, h]

theorem parse_step_pm_err (code : List Char) (ptr : Nat) (acc : Bytecode) (c : Char)
    (h : code.get? ptr = some c) (hpm : c = '+' ∨ c = '-')
    (hs : sum_repeatable_commands code ptr '+' '-' = none) :
    parse_loop code ptr acc = none := by
  rw [parse_loop_eq, h]
  simp only [if_pos hpm, hs]

theorem parse_step_pm (code : List Char) (ptr : Nat) (acc : Bytecode) (c : Char)
    (p : Nat) (amount : Int)
    (h : code.get? ptr = some c) (hpm : c = '+' ∨ c = '-')
    (hs : sum_repeatable_commands code ptr '+' '-' = some (p, amount)) :
    parse_loop code ptr acc = parse_loop code (p + 1) (acc ++ [IncCell amount]) := by
  rw [parse_loop_eq, h]
  simp only [if_pos hpm, hs]

theorem parse_step_lr_err (code : List Char) (ptr : Nat) (acc : Bytecode) (c : Char)
    (h : code.get? ptr = some c) (h1 : ¬(c = '+' ∨ c = '-')) (hlr : c = '>' ∨ c = '<')
    (hs : sum_repeatable_commands code ptr '>' '<' = none) :
    parse_loop code ptr acc = none := by
  rw [parse_loop_eq, h]
  simp only [if_neg h1, if_pos hlr, hs]

theorem parse_step_lr (code : List Char) (ptr : Nat) (acc : Bytecode) (c : Char)
    (p : Nat) (amount : Int)
    (h : code.get? ptr = some c) (h1 : ¬(c = '+' ∨ c = '-')) (hlr : c = '>' ∨ c = '<')
    (hs : sum_repeatable_commands code ptr '>' '<' = some (p, amount)) :
    parse_loop code ptr acc = parse_loop code (p + 1) (acc ++ [IncPtr amount]) := by
  rw [parse_loop_eq, h]
  simp only [if_neg h1, if_pos hlr, hs]

theorem parse_step_char (code : List Char) (ptr : Nat) (acc : Bytecode) (c : Char)
    (h : code.get? ptr = some c) (h1 : ¬(c = '+' ∨ c = '-')) (h2 : ¬(c = '>' ∨ c = '<')) :
    parse_loop code ptr acc =
      parse_loop code (ptr + 1)
        (acc ++ (if c = '[' then [StartLoop] else if c = ']' then [EndLoop]
          else if c = ',' then [Input] else if c = '.' then [Output] else [])) := by
  rw [parse_loop_eq, h]
  simp only [if_neg h1, if_neg h2]
  by_cases h3 : c = '['
  · subst h3; simp
  by_cases h4 : c = ']'
  · subst h4; simp
  by_cases h5 : c = ','
  · subst h5; simp
  by_cases h6 : c = '.'
  · subst h6; simp [h3, h4, h5]
  simp [h3, h4, h5, h6]

/-- If the last source character is one of `+ - < >`, the grouper fails
from every start position inside the source: the run containing the last
character makes the scanning loop read `code[len(code)]`. -/
theorem parse_loop_none_of_last (code : List Char) (cl : Char)
    (hlast : code.get? (code.length - 1) = some cl)
    (hcl : cl = '+' ∨ cl = '-' ∨ cl = '<' ∨ cl = '>') :
    ∀ (code_ptr : Nat) (bytecode : Bytecode),
      code_ptr < code.length → parse_loop code code_ptr bytecode = none := by
  intro code_ptr bytecode
  induction code_ptr, bytecode using parse_loop.induct code with
  | case1 ptr acc h =>
    intro hlt
    exact absurd (List.get?_eq_none.mp h) (by omega)
  | case2 ptr acc c h hpm hs =>
    intro hlt
    exact parse_step_pm_err code ptr acc c h hpm hs
  | case3 ptr acc c h hpm p amount hs ih =>
    intro hlt
    rw [parse_step_pm code ptr acc c p amount h hpm hs]
    obtain ⟨hlt2, c', hgc', -, -⟩ := sum_commands_progress code ptr '+' '-' c p amount h hpm hs
    obtain ⟨hl2, -⟩ := List.get?_eq_some.mp hgc'
    exact ih hl2
  | case4 ptr acc c h h1 hlr hs =>
    intro hlt
    exact parse_step_lr_err code ptr acc c h h1 hlr hs
  | case5 ptr acc c h h1 hlr p amount hs ih =>
    intro hlt
    rw [parse_step_lr code ptr acc c p amount h h1 hlr hs]
    obtain ⟨hlt2, c', hgc', -, -⟩ := sum_commands_progress code ptr '>' '<' c p amount h hlr hs
    obtain ⟨hl2, -⟩ := List.get?_eq_some.mp hgc'
    exact ih hl2
  | case6 ptr acc h h1 h2 ih =>
    intro hlt
    rcases Nat.lt_or_ge (ptr + 1) code.length with hlt2 | hge
    · rw [parse_step_char code ptr acc '[' h h1 h2]
      exact ih hlt2
    · have heq : ptr = code.length - 1 := by omega
      rw [heq, hlast] at h
      rcases hcl with rfl | rfl | rfl | rfl <;> exact absurd (Option.some.inj h) (by decide)
  | case7 ptr acc h h1 h2 h3 ih =>
    intro hlt
    rcases Nat.lt_or_ge (ptr + 1) code.length with hlt2 | hge
    · rw [parse_step_char code ptr acc ']' h h1 h2]
      exact ih hlt2
    · have heq : ptr = code.length - 1 := by omega
      rw [heq, hlast] at h
      rcases hcl with rfl | rfl | rfl | rfl <;> exact absurd (Option.some.inj h) (by decide)
  | case8 ptr acc h h1 h2 h3 h4 ih =>
    intro hlt
    rcases Nat.lt_or_ge (ptr + 1) code.length with hlt2 | hge
    · rw [parse_step_char code ptr acc ',' h h1 h2]
      exact ih hlt2
    · have heq : ptr = code.length - 1 := by omega
      rw [heq, hlast] at h
      rcases hcl with rfl | rfl | rfl | rfl <;> exact absurd (Option.some.inj h) (by decide)
  | case9 ptr acc h h1 h2 h3 h4 h5 ih =>
    intro hlt
    rcases Nat.lt_or_ge (ptr + 1) code.length with hlt2 | hge
    · rw [parse_step_char code ptr acc '.' h h1 h2]
      exact ih hlt2
    · have heq : ptr = code.length - 1 := by omega
      rw [heq, hlast] at h
      rcases hcl with rfl | rfl | rfl | rfl <;> exact absurd (Option.some.inj h) (by decide)
  | case10 ptr acc c h h1 h2 h3 h4 h5 h6 ih =>
    intro hlt
    rcases Nat.lt_or_ge (ptr + 1) code.length with hlt2 | hge
    · rw [parse_step_char code ptr acc c h h1 h2]
      simp only [if_neg h3, if_neg h4, if_neg h5, if_neg h6, List.append_nil]
      exact ih hlt2
    · have heq : ptr = code.length - 1 := by omega
      rw [heq, hlast] at h
      have hc : c = cl := (Option.some.inj h).symm
      subst hc
      rcases hcl with rfl | rfl | rfl | rfl <;> simp at h1 h2
/-- If the source does not end in one of `+ - < >` (in particular if it is
empty), the grouper succeeds from every start position. -/
theorem parse_loop_some_of_last (code : List Char)
    (hlast : ∀ c, code.get? (code.length - 1) = some c →
      ¬(c = '+' ∨ c = '-' ∨ c = '<' ∨ c = '>')) :
    ∀ (code_ptr : Nat) (bytecode : Bytecode),
      (parse_loop code code_ptr bytecode).isSome = true := by
  intro code_ptr bytecode
  induction code_ptr, bytecode using parse_loop.induct code with
  | case1 ptr acc h =>
    rw [parse_step_end code ptr acc h]
    rfl
  | case2 ptr acc c h hpm hs =>
    exfalso
    have hall := (sum_loop_none_iff code ptr '+' '-' 0).mp hs
    obtain ⟨hl, -⟩ := List.get?_eq_some.mp h
    have hcl := List.get?_eq_get (show code.length - 1 < code.length by omega)
    have hmem := hall (code.length - 1) _ (by omega) hcl
    exact hlast _ hcl (by tauto)
  | case3 ptr acc c h hpm p amount hs ih =>
    rw [parse_step_pm code ptr acc c p amount h hpm hs]
    exact ih
  | case4 ptr acc c h h1 hlr hs =>
    exfalso
    have hall := (sum_loop_none_iff code ptr '>' '<' 0).mp hs
    obtain ⟨hl, -⟩ := List.get?_eq_some.mp h
    have hcl := List.get?_eq_get (show code.length - 1 < code.length by omega)
    have hmem := hall (code.length - 1) _ (by omega) hcl
    exact hlast _ hcl (by tauto)
  | case5 ptr acc c h h1 hlr p amount hs ih =>
    rw [parse_step_lr code ptr acc c p amount h h1 hlr hs]
    exact ih
  | case6 ptr acc h h1 h2 ih =>
    have hstep := parse_step_char code ptr acc '[' h h1 h2
    simp only [reduceIte] at hstep
    rw [hstep]
    exact ih
  | case7 ptr acc h h1 h2 h3 ih =>
    have hstep := parse_step_char code ptr acc ']' h h1 h2
    simp only [reduceIte] at hstep
    rw [hstep]
    exact ih
  | case8 ptr acc h h1 h2 h3 h4 ih =>
    have hstep := parse_step_char code ptr acc ',' h h1 h2
    simp only [reduceIte] at hstep
    rw [hstep]
    exact ih
  | case9 ptr acc h h1 h2 h3 h4 h5 ih =>
    have hstep := parse_step_char code ptr acc '.' h h1 h2
    simp only [reduceIte] at hstep
    rw [hstep]
    exact ih
  | case10 ptr acc c h h1 h2 h3 h4 h5 h6 ih =>
    have hstep := parse_step_char code ptr acc c h h1 h2
    simp only [if_neg h3, if_neg h4, if_neg h5, if_neg h6, List.append_nil] at hstep
    rw [hstep]
    exact ih

/-- C10: the grouper reads past the end of the source exactly on the
sources whose last character is `+`, `-`, `<` or `>`: run-length grouping
(and with it compilation) fails with an index error precisely then, and
succeeds on every other source. -/
theorem c10_grouper_fails_iff_trailing_repeatable :
    ∀ (code : List Char),
      parse_basic_instructions code = none ↔
        ∃ c, code.getLast? = some c ∧ (c = '+' ∨ c = '-' ∨ c = '<' ∨ c = '>') := by
  intro code
  rw [parse_basic_instructions]
  constructor
  · intro h
    by_contra hno
    push_neg at hno
    have hlast : ∀ c, code.get? (code.length - 1) = some c →
        ¬(c = '+' ∨ c = '-' ∨ c = '<' ∨ c = '>') := by
      intro c hc
      have := hno c (by rw [List.getLast?_eq_get?]; exact hc)
      tauto
    have := parse_loop_some_of_last code hlast 0 []
    rw [h] at this
    exact absurd this (by simp)
  · intro ⟨c, hl, hc⟩
    rw [List.getLast?_eq_get?] at hl
    have hpos : 0 < code.length := by
      by_contra hz
      rw [List.get?_eq_none.mpr (by omega)] at hl
      exact absurd hl (by simp)
    exact parse_loop_none_of_last code c hl (by tauto) 0 [] hpos
